import Mathlib

/-!
Verification of the MedASR transcription core, a shallow embedding of
src/server/transcribe.py.  Symbol ids are naturals, waveform samples are
rationals, text is a list of characters.  The acoustic model, the tokenizer
vocabulary and the HuggingFace chunked pipeline are external collaborators and
enter as function parameters.
-/

namespace MedASR

/-! ## CTC greedy collapse (transcribe.py lines 123-129) -/

/-- Loop body of the manual CTC collapse.  The accumulator mirrors `prev_id`,
which starts as Python `None` (line 125); a token is appended iff
`token_id != blank_id and token_id != prev_id` (line 127), and `prev_id` is
updated at every step (line 129). -/
def ctcCollapseGo (blank : ℕ) : Option ℕ → List ℕ → List ℕ
  | _, [] => []
  | prev, t :: rest =>
    if t ≠ blank ∧ prev ≠ some t then t :: ctcCollapseGo blank (some t) rest
    else ctcCollapseGo blank (some t) rest

/-- The `collapsed_ids` produced from the arg-max symbol id sequence
(transcribe.py lines 124-129). -/
def ctcCollapse (s : List ℕ) (blank : ℕ) : List ℕ :=
  ctcCollapseGo blank none s

/-- Spec-side definition for claim C1, following the spec's words: merge
consecutive duplicates ("run-length collapse") — inner loop, carrying the
previous element. -/
def runLengthCollapseGo : ℕ → List ℕ → List ℕ
  | _, [] => []
  | p, t :: rest =>
    if t = p then runLengthCollapseGo t rest else t :: runLengthCollapseGo t rest

/-- Spec-side definition for claim C1: run-length collapse of a sequence,
merging consecutive duplicate symbols. -/
def runLengthCollapse : List ℕ → List ℕ
  | [] => []
  | t :: rest => t :: runLengthCollapseGo t rest

lemma ctcCollapseGo_eq_filter (blank p : ℕ) (rest : List ℕ) :
    ctcCollapseGo blank (some p) rest =
      (runLengthCollapseGo p rest).filter (· ≠ blank) := by
  induction rest generalizing p with
  | nil => rfl
  | cons t rest ih =>
    by_cases hp : t = p
    · subst hp
      simp [ctcCollapseGo, runLengthCollapseGo, ih]
    · by_cases hb : t = blank
      · subst hb
        simp [ctcCollapseGo, runLengthCollapseGo, hp, ih, List.filter_cons]
      · simp [ctcCollapseGo, runLengthCollapseGo, hp, hb, Ne.symm hp, ih,
          List.filter_cons]

lemma ctcCollapse_eq_filter (s : List ℕ) (blank : ℕ) :
    ctcCollapse s blank = (runLengthCollapse s).filter (· ≠ blank) := by
  cases s with
  | nil => rfl
  | cons t rest =>
    by_cases hb : t = blank
    · subst hb
      simp [ctcCollapse, ctcCollapseGo, runLengthCollapse,
        ctcCollapseGo_eq_filter, List.filter_cons]
    · simp [ctcCollapse, ctcCollapseGo, runLengthCollapse, hb,
        ctcCollapseGo_eq_filter, List.filter_cons]

/-- C1: the greedy CTC collapse emits exactly the run-length collapse of the
input (consecutive duplicates merged) with every occurrence of the blank id
removed; in particular the previous-symbol tracker is updated at every step,
so the same symbol reappears after an intervening blank. -/
theorem C1_collapse_eq_runlength_minus_blanks (S : List ℕ) (b : ℕ) :
    ctcCollapse S b = (runLengthCollapse S).filter (· ≠ b) :=
  ctcCollapse_eq_filter S b

lemma mem_runLengthCollapseGo {x p : ℕ} {l : List ℕ}
    (h : x ∈ runLengthCollapseGo p l) : x ∈ l := by
  induction l generalizing p with
  | nil => simp [runLengthCollapseGo] at h
  | cons t rest ih =>
    by_cases hp : t = p
    · simp only [runLengthCollapseGo, if_pos hp] at h
      exact List.mem_cons_of_mem _ (ih h)
    · simp only [runLengthCollapseGo, if_neg hp, List.mem_cons] at h
      rcases h with h | h
      · exact h ▸ List.mem_cons_self _ _
      · exact List.mem_cons_of_mem _ (ih h)

lemma mem_runLengthCollapse {x : ℕ} {l : List ℕ}
    (h : x ∈ runLengthCollapse l) : x ∈ l := by
  cases l with
  | nil => simp [runLengthCollapse] at h
  | cons t rest =>
    simp only [runLengthCollapse, List.mem_cons] at h
    rcases h with h | h
    · exact h ▸ List.mem_cons_self _ _
    · exact List.mem_cons_of_mem _ (mem_runLengthCollapseGo h)

lemma chain'_runLengthCollapseGo (l : List ℕ) (p : ℕ) :
    List.Chain' (· ≠ ·) (p :: runLengthCollapseGo p l) := by
  induction l generalizing p with
  | nil => simp [runLengthCollapseGo]
  | cons t rest ih =>
    by_cases hp : t = p
    · subst hp
      simpa [runLengthCollapseGo] using ih t
    · simp only [runLengthCollapseGo, if_neg hp]
      exact List.chain'_cons.mpr ⟨Ne.symm hp, ih t⟩

lemma chain'_runLengthCollapse (l : List ℕ) :
    List.Chain' (· ≠ ·) (runLengthCollapse l) := by
  cases l with
  | nil => simp [runLengthCollapse]
  | cons t rest => exact chain'_runLengthCollapseGo rest t

/-- C3 counterexample: on `S = [3, 0, 3]` with blank `b = 0` the decoder emits
`[3, 3]` — two adjacent identical symbols, because the same symbol reappears
after an intervening blank.  The claim "no two adjacent identical emitted
symbols" is false as stated. -/
theorem C3_counterexample :
    ctcCollapse [3, 0, 3] 0 = [3, 3] ∧
      ¬ List.Chain' (· ≠ ·) (ctcCollapse [3, 0, 3] 0) := by
  have h : ctcCollapse [3, 0, 3] 0 = [3, 3] := by
    simp [ctcCollapse, ctcCollapseGo]
  refine ⟨h, ?_⟩
  rw [h]
  simp [List.chain'_cons]

/-- C3 amended: whenever the blank id does not occur in `S`, the emitted
symbol sequence `ctcCollapse S b` contains no two adjacent identical symbols
(adjacent duplicates can only arise from the same symbol recurring across an
intervening blank). -/
theorem C3_amended_no_adjacent_duplicates (S : List ℕ) (b : ℕ) (h : b ∉ S) :
    List.Chain' (· ≠ ·) (ctcCollapse S b) := by
  rw [ctcCollapse_eq_filter]
  rw [List.filter_eq_self.mpr ?_]
  · exact chain'_runLengthCollapse S
  · intro x hx
    have hxb : x ≠ b := fun hxb => h (hxb ▸ mem_runLengthCollapse hx)
    simpa using hxb

/-- Witness for the amended C3 at a concrete blank-free input. -/
theorem C3_amended_witness :
    List.Chain' (· ≠ ·) (ctcCollapse [1, 2, 2, 3] 0) :=
  C3_amended_no_adjacent_duplicates [1, 2, 2, 3] 0 (by decide)

/-! ## Audio validation (transcribe.py lines 84-99) -/

/-- The three input-validation failures raised by `transcribe`
(transcribe.py lines 88-99); each is a `ValueError` in the source, named here
after the spec's taxonomy. -/
inductive AudioError where
  | emptyAudio
  | tooShortAudio
  | silentAudio
  deriving DecidableEq

/-- `max_amplitude = np.max(np.abs(audio))` (transcribe.py line 95), with a
`0` floor that is inert on the non-empty waveforms the check is reached on,
since `|x| ≥ 0`. -/
def peakAmp (w : List ℚ) : ℚ := w.foldr (fun x m => max |x| m) 0

/-- The validation sequence of `transcribe` (transcribe.py lines 84-99):
empty check on the sample count (line 88), duration check
`len(audio) / sr < 0.1` with `sr = 16000` (lines 85, 91), then the silence
check `max_amplitude < 0.001` (line 98), in that order. -/
def validate (w : List ℚ) : Option AudioError :=
  if w.length = 0 then some .emptyAudio
  else if (w.length : ℚ) / 16000 < 1 / 10 then some .tooShortAudio
  else if peakAmp w < 1 / 1000 then some .silentAudio
  else none

/-- C2: `EmptyAudioError` iff the sample count is 0; `TooShortAudioError` iff
the count is non-zero and the duration `samples / 16000` is below 0.1 s;
`SilentAudioError` iff the duration is at least 0.1 s and the peak absolute
amplitude is below 0.001; otherwise no validation error. -/
theorem C2_validation_characterisation (w : List ℚ) :
    (validate w = some AudioError.emptyAudio ↔ w.length = 0) ∧
    (validate w = some AudioError.tooShortAudio ↔
      w.length ≠ 0 ∧ (w.length : ℚ) / 16000 < 1 / 10) ∧
    (validate w = some AudioError.silentAudio ↔
      (1 : ℚ) / 10 ≤ (w.length : ℚ) / 16000 ∧ peakAmp w < 1 / 1000) ∧
    (validate w = none ↔
      w.length ≠ 0 ∧ ¬ ((w.length : ℚ) / 16000 < 1 / 10) ∧
        ¬ (peakAmp w < 1 / 1000)) := by
  by_cases h1 : w.length = 0
  · have hv : validate w = some AudioError.emptyAudio := by
      unfold validate; rw [if_pos h1]
    have hd : ((w.length : ℚ) / 16000) = 0 := by rw [h1]; norm_num
    refine ⟨iff_of_true hv h1, iff_of_false (by simp [hv]) (fun h => h.1 h1),
      iff_of_false (by simp [hv]) ?_, iff_of_false (by simp [hv]) (fun h => h.1 h1)⟩
    rw [hd]
    norm_num
  · by_cases h2 : (w.length : ℚ) / 16000 < 1 / 10
    · have hv : validate w = some AudioError.tooShortAudio := by
        unfold validate; rw [if_neg h1, if_pos h2]
      exact ⟨iff_of_false (by simp [hv]) h1, iff_of_true hv ⟨h1, h2⟩,
        iff_of_false (by simp [hv]) (fun h => absurd h.1 (not_le.mpr h2)),
        iff_of_false (by simp [hv]) (fun h => h.2.1 h2)⟩
    · by_cases h3 : peakAmp w < 1 / 1000
      · have hv : validate w = some AudioError.silentAudio := by
          unfold validate; rw [if_neg h1, if_neg h2, if_pos h3]
        exact ⟨iff_of_false (by simp [hv]) h1,
          iff_of_false (by simp [hv]) (fun h => h2 h.2),
          iff_of_true hv ⟨not_lt.mp h2, h3⟩,
          iff_of_false (by simp [hv]) (fun h => h.2.2 h3)⟩
      · have hv : validate w = none := by
          unfold validate; rw [if_neg h1, if_neg h2, if_neg h3]
        exact ⟨iff_of_false (by simp [hv]) h1,
          iff_of_false (by simp [hv]) (fun h => h2 h.2),
          iff_of_false (by simp [hv]) (fun h => h3 h.2),
          iff_of_true hv ⟨h1, h2, h3⟩⟩

/-- Witness for C2 evaluated at the empty waveform. -/
theorem C2_witness : validate ([] : List ℚ) = some AudioError.emptyAudio :=
  (C2_validation_characterisation []).1.mpr rfl

/-- C10: the checks run in the order empty, too-short, silent; a waveform
that is both too short and silent raises the too-short error, never the
silent one. -/
theorem C10_tooShort_shadows_silent (w : List ℚ) (h1 : w.length ≠ 0)
    (h2 : (w.length : ℚ) / 16000 < 1 / 10) (_h3 : peakAmp w < 1 / 1000) :
    validate w = some AudioError.tooShortAudio ∧
      validate w ≠ some AudioError.silentAudio := by
  have hv : validate w = some AudioError.tooShortAudio := by
    unfold validate
    rw [if_neg h1, if_pos h2]
  exact ⟨hv, by simp [hv]⟩

/-- Witness for C10: a one-sample zero waveform is both too short
(1/16000 s < 0.1 s) and silent (peak 0 < 0.001). -/
theorem C10_witness :
    validate [(0 : ℚ)] = some AudioError.tooShortAudio ∧
      validate [(0 : ℚ)] ≠ some AudioError.silentAudio :=
  C10_tooShort_shadows_silent [0] (by simp) (by norm_num)
    (by norm_num [peakAmp])

/-! ## Text post-processing (transcribe.py lines 132-139) -/

/-- Python's `\s` whitespace class restricted to ASCII:
space, tab, newline, carriage return, vertical tab, form feed. -/
def isPySpace (c : Char) : Bool :=
  c == ' ' || c == '\t' || c == '\n' || c == '\r' || c == '\x0b' || c == '\x0c'

/-- Python `str.strip()`: drop whitespace from both ends
(transcribe.py lines 133 and 139). -/
def stripChars (s : List Char) : List Char :=
  ((s.dropWhile isPySpace).reverse.dropWhile isPySpace).reverse

/-- The character class `[^>]` of the tag regex, as a predicate. -/
def neGt (c : Char) : Bool := c != '>'

/-- `re.sub(r'<[^>]+>', '', text)` (transcribe.py line 137), with explicit
fuel to keep the recursion structural.  At a `<` the regex engine matches
greedily up to the first later `>` provided at least one non-`>` character
lies between; matched spans are deleted and scanning resumes after them,
otherwise the scan advances one character. -/
def removeTagsF : ℕ → List Char → List Char
  | 0, s => s
  | _ + 1, [] => []
  | fuel + 1, c :: rest =>
    if c = '<' then
      if (rest.takeWhile neGt) ≠ [] ∧
          (rest.takeWhile neGt).length < rest.length then
        removeTagsF fuel (rest.drop ((rest.takeWhile neGt).length + 1))
      else
        c :: removeTagsF fuel rest
    else
      c :: removeTagsF fuel rest

/-- Tag removal at full fuel (one unit of fuel per character suffices). -/
def removeTags (s : List Char) : List Char := removeTagsF s.length s

/-- `re.sub(r'\s+', ' ', text)` (transcribe.py line 138): every maximal run
of whitespace becomes a single space. -/
def collapseWs : List Char → List Char
  | [] => []
  | [c] => if isPySpace c then [' '] else [c]
  | c :: d :: rest =>
    if isPySpace c then
      if isPySpace d then collapseWs (d :: rest)
      else ' ' :: collapseWs (d :: rest)
    else
      c :: collapseWs (d :: rest)

/-- The post-processing chain of `transcribe` (transcribe.py lines 133-139):
strip, remove `<...>` tags, collapse whitespace runs, strip again. -/
def cleanupText (s : List Char) : List Char :=
  stripChars (collapseWs (removeTags (stripChars s)))

/-- Greedy CTC decode to text (transcribe.py lines 124-139): collapse the
symbol ids, map each id to its vocabulary fragment and concatenate
(`tokenizer.decode`), then post-process.  The vocabulary is external and
enters as a parameter. -/
def decodeText (S : List ℕ) (b : ℕ) (vocab : ℕ → List Char) : List Char :=
  cleanupText ((ctcCollapse S b).map vocab).flatten

/-- C7: decoding the empty symbol sequence returns the empty string without
an error, and decoding an all-blank sequence `[b, b, b]` also returns the
empty string, for every blank id and vocabulary. -/
theorem C7_empty_and_all_blank_decode_empty (b : ℕ) (vocab : ℕ → List Char) :
    decodeText [] b vocab = [] ∧ decodeText [b, b, b] b vocab = [] := by
  have h2 : ctcCollapse [b, b, b] b = [] := by
    simp [ctcCollapse, ctcCollapseGo]
  constructor <;>
    simp [decodeText, h2, ctcCollapse, ctcCollapseGo, cleanupText, stripChars,
      removeTags, removeTagsF, collapseWs]

/-! ## The single-shot transcribe path (transcribe.py lines 63-143) -/

/-- `transcribe` after the model is loaded, instrumented with the number of
acoustic-model forward passes (the `self.model(**inputs)` call on line 114).
Audio loading is delegated upstream; the acoustic model composed with argmax
enters as a parameter from waveform to symbol ids.  Validation (lines 84-99)
happens before the model is invoked, so a failed validation performs zero
forward passes. -/
def transcribeInstr (model : List ℚ → List ℕ) (vocab : ℕ → List Char)
    (blank : ℕ) (w : List ℚ) : Except AudioError (List Char) × ℕ :=
  match validate w with
  | some e => (Except.error e, 0)
  | none => (Except.ok (decodeText (model w) blank vocab), 1)

/-- The result of `transcribe` (transcribe.py lines 63-143). -/
def transcribe (model : List ℚ → List ℕ) (vocab : ℕ → List Char)
    (blank : ℕ) (w : List ℚ) : Except AudioError (List Char) :=
  (transcribeInstr model vocab blank w).1

/-- C6: a `transcribe` call that ends in a validation error performs zero
acoustic-model forward passes. -/
theorem C6_validation_error_means_no_model_call (model : List ℚ → List ℕ)
    (vocab : ℕ → List Char) (blank : ℕ) (w : List ℚ) (e : AudioError)
    (h : transcribe model vocab blank w = Except.error e) :
    (transcribeInstr model vocab blank w).2 = 0 := by
  unfold transcribe transcribeInstr at h
  unfold transcribeInstr
  cases hv : validate w <;> simp [hv] at h ⊢

/-- Witness for C6 at the empty waveform. -/
theorem C6_witness :
    (transcribeInstr (fun _ => []) (fun _ => []) 0 []).2 = 0 :=
  C6_validation_error_means_no_model_call (fun _ => []) (fun _ => []) 0 []
    AudioError.emptyAudio rfl

/-! ## Model readiness and device state (transcribe.py lines 32-61, 145-185) -/

/-- The mutable fields of `MedASRTranscriber` the claims observe: the
`_loaded` flag (line 36) and the `device` string chosen at construction
(line 33). -/
structure Transcriber where
  loaded : Bool
  device : String
  deriving DecidableEq

/-- Outcome of the external `from_pretrained` calls inside `load_model`
(transcribe.py lines 55-56). -/
inductive LoadOutcome where
  | success
  | failure
  deriving DecidableEq

/-- `load_model` (transcribe.py lines 48-61): returns immediately when
`_loaded` is set (lines 50-51); otherwise attempts the load, setting
`_loaded = True` on success (line 60).  On failure the exception propagates
before `_loaded` is assigned, so the flag stays `False`.  Result: state after
the call, whether a load was attempted (`from_pretrained` invoked), and
whether the call raised. -/
def load_model (t : Transcriber) (o : LoadOutcome) : Transcriber × Bool × Bool :=
  if t.loaded then (t, false, false)
  else
    match o with
    | .success => ({ t with loaded := true }, true, false)
    | .failure => (t, true, true)

/-- The entry guard shared by `transcribe` and `transcribe_chunks`
(transcribe.py lines 73-74 and 157-158): `if not self._loaded:
self.load_model()`. -/
def ensureLoaded (t : Transcriber) (o : LoadOutcome) : Transcriber × Bool × Bool :=
  if t.loaded then (t, false, false) else load_model t o

/-- C5: the readiness state machine.  A call on an unloaded service attempts
the load; a successful load makes the service ready without raising; once
ready, `load_model` and the call-entry guard are no-ops (no reload attempt);
a failed load raises but leaves the service unloaded, so the next call
attempts the load again. -/
theorem C5_readiness_state_machine (t : Transcriber) (o : LoadOutcome) :
    (t.loaded = false → (ensureLoaded t o).2.1 = true) ∧
    (t.loaded = false →
      (load_model t .success).1.loaded = true ∧
        (load_model t .success).2.2 = false) ∧
    (t.loaded = true →
      load_model t o = (t, false, false) ∧ ensureLoaded t o = (t, false, false)) ∧
    (t.loaded = false →
      (load_model t .failure).1.loaded = false ∧
        (load_model t .failure).2.2 = true ∧
        (ensureLoaded (load_model t .failure).1 o).2.1 = true) := by
  cases o <;> cases ht : t.loaded <;>
    simp [ensureLoaded, load_model, ht]

/-- Witness for C5 on a fresh unloaded transcriber: the first call attempts
the load. -/
theorem C5_witness :
    (ensureLoaded ⟨false, "cpu"⟩ LoadOutcome.success).2.1 = true :=
  (C5_readiness_state_machine ⟨false, "cpu"⟩ LoadOutcome.success).1 rfl

/-- The device handed to the HF pipeline by `transcribe_chunks`
(transcribe.py line 170): `self.device if self.device != "mps" else "cpu"`. -/
def chunkPipeDevice (t : Transcriber) : String :=
  if t.device ≠ "mps" then t.device else "cpu"

/-- The state/device behaviour of `transcribe_chunks` (transcribe.py lines
145-185): ensure the model is loaded (propagating a load failure), then build
the pipeline on `chunkPipeDevice` — without assigning `self.device` — and run
it.  Returns the transcriber state after the call and, when nothing raised,
the pipeline device together with the stripped pipeline text (line 182). -/
def transcribeChunksRun (t : Transcriber) (o : LoadOutcome)
    (pipe : List ℚ → ℕ → ℕ → List Char) (w : List ℚ)
    (chunkLengthS strideLengthS : ℕ) :
    Transcriber × Except Unit (String × List Char) :=
  if (ensureLoaded t o).2.2 then ((ensureLoaded t o).1, Except.error ())
  else ((ensureLoaded t o).1,
    Except.ok (chunkPipeDevice (ensureLoaded t o).1,
      stripChars (pipe w chunkLengthS strideLengthS)))

/-- C9: `transcribe_chunks` runs its pipeline on "cpu" exactly when the
stored device is the unsupported "mps" (and on the stored device otherwise),
and the stored `device` field is unchanged after the call, for every device
value. -/
theorem C9_mps_fallback_without_device_mutation (t : Transcriber)
    (o : LoadOutcome) (pipe : List ℚ → ℕ → ℕ → List Char) (w : List ℚ)
    (cS sS : ℕ) :
    (transcribeChunksRun t o pipe w cS sS).1.device = t.device ∧
    (∀ dv out, (transcribeChunksRun t o pipe w cS sS).2 = Except.ok (dv, out) →
      dv = if t.device = "mps" then "cpu" else t.device) := by
  have hdev : (ensureLoaded t o).1.device = t.device := by
    cases o <;> cases ht : t.loaded <;> simp [ensureLoaded, load_model, ht]
  refine ⟨?_, ?_⟩
  · unfold transcribeChunksRun
    split <;> simpa using hdev
  · intro dv out h
    unfold transcribeChunksRun at h
    split at h
    · cases h
    · simp only [Except.ok.injEq, Prod.mk.injEq] at h
      rw [← h.1, chunkPipeDevice, hdev]
      by_cases hm : t.device = "mps" <;> simp [hm]

/-- Witness for C9 on an "mps" transcriber: the pipeline device is "cpu" and
the stored device is untouched. -/
theorem C9_witness :
    (transcribeChunksRun ⟨false, "mps"⟩ LoadOutcome.success
        (fun _ _ _ => []) [] 20 2).1.device = "mps" ∧
      ("cpu" : String) = (if ("mps" : String) = "mps" then "cpu" else "mps") := by
  have h := C9_mps_fallback_without_device_mutation ⟨false, "mps"⟩
    LoadOutcome.success (fun _ _ _ => []) [] 20 2
  exact ⟨h.1, h.2 "cpu" [] (by rfl)⟩

/-! ## Chunked transcription text path (transcribe.py lines 145-185) vs the
single-shot path, for claim C4 -/

/-- The text produced by `transcribe_chunks` (transcribe.py lines 145-185):
the waveform goes straight to the external HF pipeline (lines 165-180) — no
validation checks — and the returned text is only stripped (line 182), with
none of the tag-removal/whitespace-collapse cleanup of the single-shot path.
The pipeline (including its internal chunking and decoding) is external and
enters as a parameter taking the waveform and the chunk/stride lengths. -/
def transcribe_chunks (pipe : List ℚ → ℕ → ℕ → List Char) (w : List ℚ)
    (chunkLengthS strideLengthS : ℕ) : Except AudioError (List Char) :=
  Except.ok (stripChars (pipe w chunkLengthS strideLengthS))

/-- A 0.1 s all-zero waveform: passes the length checks, fails the silence
check; much shorter than the default 20 s chunk. -/
def silentWave : List ℚ := List.replicate 1600 0

lemma transcribe_eq_error (model : List ℚ → List ℕ) (vocab : ℕ → List Char)
    (blank : ℕ) (w : List ℚ) (e : AudioError) (h : validate w = some e) :
    transcribe model vocab blank w = Except.error e := by
  unfold transcribe transcribeInstr
  rw [h]

lemma transcribe_eq_ok (model : List ℚ → List ℕ) (vocab : ℕ → List Char)
    (blank : ℕ) (w : List ℚ) (h : validate w = none) :
    transcribe model vocab blank w =
      Except.ok (decodeText (model w) blank vocab) := by
  unfold transcribe transcribeInstr
  rw [h]

lemma peakAmp_replicate_zero (n : ℕ) : peakAmp (List.replicate n (0 : ℚ)) = 0 := by
  induction n with
  | zero => rfl
  | succ n ih =>
    simp only [List.replicate_succ, peakAmp, List.foldr_cons] at ih ⊢
    rw [ih]
    norm_num

lemma validate_silentWave : validate silentWave = some AudioError.silentAudio := by
  unfold validate silentWave
  rw [List.length_replicate]
  rw [if_neg (by norm_num), if_neg (by norm_num), if_pos]
  rw [peakAmp_replicate_zero]
  norm_num

/-- C4 counterexample: on a 0.1 s silent waveform — far shorter than one
20 s chunk — the single-shot `transcribe` raises `SilentAudioError`, while
`transcribe_chunks` performs no validation and returns the pipeline's text,
so the two disagree (shown here for a pipeline returning empty text; the
chunked result is `ok` for every pipeline). -/
theorem C4_counterexample :
    (silentWave.length : ℚ) / 16000 < 20 ∧
    transcribe (fun _ => []) (fun _ => []) 0 silentWave =
      Except.error AudioError.silentAudio ∧
    transcribe_chunks (fun _ _ _ => []) silentWave 20 2 = Except.ok [] ∧
    transcribe_chunks (fun _ _ _ => []) silentWave 20 2 ≠
      transcribe (fun _ => []) (fun _ => []) 0 silentWave := by
  have ht : transcribe (fun _ => ([] : List ℕ)) (fun _ => ([] : List Char)) 0
      silentWave = Except.error AudioError.silentAudio :=
    transcribe_eq_error (fun _ => []) (fun _ => []) 0 silentWave
      AudioError.silentAudio validate_silentWave
  have hs : (silentWave.length : ℚ) / 16000 < 20 := by
    unfold silentWave
    rw [List.length_replicate]
    norm_num
  exact ⟨hs, ht, rfl, by rw [ht]; exact fun h => by cases h⟩

/-- C4 amended: for a valid waveform shorter than one chunk, *if* the
external pipeline's decode of it coincides with the manual CTC decode of the
single-shot path and the decoded text is already clean (stripping it equals
the full cleanup), then `transcribe_chunks` returns the same text as
`transcribe`.  Without those conditions the paths differ: the chunked path
skips validation and applies only `strip`. -/
theorem C4_amended_single_chunk_agreement (model : List ℚ → List ℕ)
    (vocab : ℕ → List Char) (blank : ℕ) (pipe : List ℚ → ℕ → ℕ → List Char)
    (w : List ℚ) (cS sS : ℕ)
    (_hshort : (w.length : ℚ) / 16000 < (cS : ℚ))
    (hvalid : validate w = none)
    (hpipe : pipe w cS sS = ((ctcCollapse (model w) blank).map vocab).flatten)
    (hclean : stripChars (pipe w cS sS) = cleanupText (pipe w cS sS)) :
    transcribe_chunks pipe w cS sS = transcribe model vocab blank w := by
  rw [transcribe_eq_ok model vocab blank w hvalid]
  unfold transcribe_chunks decodeText
  rw [hclean, hpipe]

/-- A 0.1 s constant half-amplitude waveform: passes all validation. -/
def validWave : List ℚ := List.replicate 1600 (1 / 2)

lemma peakAmp_replicate_half (n : ℕ) :
    peakAmp (List.replicate (n + 1) ((1 : ℚ) / 2)) = 1 / 2 := by
  induction n with
  | zero =>
    simp only [List.replicate_succ, List.replicate_zero, peakAmp, List.foldr_cons,
      List.foldr_nil]
    norm_num [abs_of_nonneg]
  | succ n ih =>
    simp only [List.replicate_succ, peakAmp, List.foldr_cons] at ih ⊢
    rw [ih]
    norm_num [abs_of_nonneg]

lemma validate_validWave : validate validWave = none := by
  unfold validate validWave
  rw [List.length_replicate]
  rw [if_neg (by norm_num), if_neg (by norm_num), if_neg]
  have : (1600 : ℕ) = 1599 + 1 := by norm_num
  rw [this, peakAmp_replicate_half]
  norm_num

/-- Witness for the amended C4: a valid 0.1 s waveform, the trivial acoustic
model and a pipeline agreeing with it. -/
theorem C4_amended_witness :
    transcribe_chunks (fun _ _ _ => []) validWave 20 2 =
      transcribe (fun _ => []) (fun _ => []) 0 validWave :=
  C4_amended_single_chunk_agreement (fun _ => []) (fun _ => []) 0
    (fun _ _ _ => []) validWave 20 2
    (by unfold validWave; rw [List.length_replicate]; norm_num)
    validate_validWave rfl rfl

/-! ## The post-processing contract (claim C8) -/

/-- Does the tag pattern `<[^>]+>` match right after a `<` with remainder
`rest`: a nonempty `>`-free run followed by a `>`. -/
def tagAt (rest : List Char) : Bool :=
  !(rest.takeWhile neGt).isEmpty &&
    decide ((rest.takeWhile neGt).length < rest.length)

/-- Does `s` contain a substring matching `<[^>]+>` anywhere. -/
def hasTag : List Char → Bool
  | [] => false
  | c :: rest => (c == '<' && tagAt rest) || hasTag rest

/-- `s` contains no bracket/tag-like substring `<...>` (a `<`, nonempty
content without `>`, then `>`). -/
def TagFree (s : List Char) : Prop :=
  ¬ ∃ u w v, s = u ++ '<' :: (w ++ '>' :: v) ∧ w ≠ [] ∧ '>' ∉ w

lemma neGt_true_iff (c : Char) : neGt c = true ↔ c ≠ '>' := by
  simp [neGt]

lemma takeWhile_neGt_eq_self {l : List Char} (h : '>' ∉ l) :
    l.takeWhile neGt = l := by
  induction l with
  | nil => rfl
  | cons a t ih =>
    have ha : neGt a = true :=
      (neGt_true_iff a).mpr (fun hx => h (hx ▸ List.mem_cons_self _ _))
    rw [List.takeWhile_cons, ha, if_pos rfl]
    rw [ih (fun hx => h (List.mem_cons_of_mem _ hx))]

lemma length_takeWhile_neGt_lt_iff (l : List Char) :
    (l.takeWhile neGt).length < l.length ↔ '>' ∈ l := by
  induction l with
  | nil => simp
  | cons a t ih =>
    by_cases ha : a = '>'
    · subst ha
      have : neGt '>' = false := by simp [neGt]
      rw [List.takeWhile_cons, this]
      simp
    · have ha' : neGt a = true := (neGt_true_iff a).mpr ha
      rw [List.takeWhile_cons, ha', if_pos rfl]
      simp only [List.length_cons, Nat.add_lt_add_iff_right, List.mem_cons]
      rw [ih]
      simp [Ne.symm ha]

lemma mem_of_mem_takeWhile_neGt {c : Char} {l : List Char}
    (h : c ∈ l.takeWhile neGt) : c ∈ l := by
  induction l with
  | nil => simp [List.takeWhile] at h
  | cons a t ih =>
    rw [List.takeWhile_cons] at h
    by_cases ha : neGt a = true
    · rw [ha, if_pos rfl] at h
      rcases List.mem_cons.mp h with h | h
      · exact h ▸ List.mem_cons_self _ _
      · exact List.mem_cons_of_mem _ (ih h)
    · rw [Bool.not_eq_true] at ha
      rw [ha] at h
      simp at h

lemma not_gt_mem_takeWhile_neGt {l : List Char} :
    '>' ∉ l.takeWhile neGt := by
  intro h
  have := List.mem_takeWhile_imp h
  simp [neGt] at this

lemma tagAt_iff (rest : List Char) :
    tagAt rest = true ↔ ∃ w v, rest = w ++ '>' :: v ∧ w ≠ [] ∧ '>' ∉ w := by
  constructor
  · intro h
    simp only [tagAt, Bool.and_eq_true, Bool.not_eq_true', List.isEmpty_eq_false,
      decide_eq_true_eq] at h
    obtain ⟨hne, hlt⟩ := h
    have hdw : rest.dropWhile neGt ≠ [] := by
      intro h0
      have := List.takeWhile_append_dropWhile neGt rest
      rw [h0, List.append_nil] at this
      rw [this] at hlt
      exact lt_irrefl _ hlt
    obtain ⟨b, t, hbt⟩ := List.exists_cons_of_ne_nil hdw
    have hb : neGt b = false := by
      have hh : (rest.dropWhile neGt).head? = some b := by rw [hbt]; rfl
      have := List.head?_dropWhile_not neGt rest
      rw [hh] at this
      exact this
    have hb' : b = '>' := by simpa [neGt] using hb
    refine ⟨rest.takeWhile neGt, t, ?_, hne, not_gt_mem_takeWhile_neGt⟩
    conv_lhs => rw [← List.takeWhile_append_dropWhile neGt rest]
    rw [hbt, hb']
  · rintro ⟨w, v, rfl, hw, hmem⟩
    have hgt : neGt '>' = false := by simp [neGt]
    have htw : (w ++ '>' :: v).takeWhile neGt = w := by
      rw [List.takeWhile_append_of_pos
        (fun a ha => (neGt_true_iff a).mpr (fun he => hmem (he ▸ ha)))]
      rw [List.takeWhile_cons, hgt]
      simp
    simp only [tagAt, htw, Bool.and_eq_true, Bool.not_eq_true',
      List.isEmpty_eq_false, decide_eq_true_eq]
    refine ⟨hw, ?_⟩
    rw [List.length_append, List.length_cons]
    omega

lemma hasTag_iff (s : List Char) :
    hasTag s = true ↔
      ∃ u w v, s = u ++ '<' :: (w ++ '>' :: v) ∧ w ≠ [] ∧ '>' ∉ w := by
  induction s with
  | nil =>
    simp only [hasTag]
    constructor
    · intro h; cases h
    · rintro ⟨u, w, v, h, -, -⟩
      exact absurd h (by simp)
  | cons c rest ih =>
    simp only [hasTag, Bool.or_eq_true, Bool.and_eq_true, beq_iff_eq]
    constructor
    · rintro (⟨rfl, htag⟩ | h)
      · obtain ⟨w, v, rfl, hw, hmem⟩ := (tagAt_iff rest).mp htag
        exact ⟨[], w, v, rfl, hw, hmem⟩
      · obtain ⟨u, w, v, rfl, hw, hmem⟩ := ih.mp h
        exact ⟨c :: u, w, v, rfl, hw, hmem⟩
    · rintro ⟨u, w, v, heq, hw, hmem⟩
      cases u with
      | nil =>
        simp only [List.nil_append, List.cons.injEq] at heq
        exact Or.inl ⟨heq.1, (tagAt_iff rest).mpr ⟨w, v, heq.2, hw, hmem⟩⟩
      | cons a u' =>
        simp only [List.cons_append, List.cons.injEq] at heq
        exact Or.inr (ih.mpr ⟨u', w, v, heq.2, hw, hmem⟩)

lemma tagFree_iff_hasTag (s : List Char) : TagFree s ↔ hasTag s = false := by
  unfold TagFree
  rw [← hasTag_iff]
  simp

lemma tagFree_of_infix (u m v : List Char) (h : TagFree (u ++ m ++ v)) :
    TagFree m := by
  rintro ⟨a, w, b, heq, hw, hmem⟩
  exact h ⟨u ++ a, w, b ++ v, by rw [heq]; simp [List.append_assoc], hw, hmem⟩

lemma tagAt_nil : tagAt [] = false := rfl

lemma tagAt_gt_cons (t : List Char) : tagAt ('>' :: t) = false := by
  have hgt : neGt '>' = false := by simp [neGt]
  simp [tagAt, List.takeWhile_cons, hgt]

lemma tagAt_of_not_mem {l : List Char} (h : '>' ∉ l) : tagAt l = false := by
  simp [tagAt, takeWhile_neGt_eq_self h]

lemma hasTag_cons_eq (c : Char) (rest : List Char) :
    hasTag (c :: rest) = ((c == '<' && tagAt rest) || hasTag rest) := rfl

lemma tagAt_false_cases {l : List Char} (h : tagAt l = false) :
    l = [] ∨ (∃ t, l = '>' :: t) ∨ '>' ∉ l := by
  cases l with
  | nil => exact Or.inl rfl
  | cons b t =>
    by_cases hb : b = '>'
    · exact Or.inr (Or.inl ⟨t, by rw [hb]⟩)
    · have hb' : neGt b = true := (neGt_true_iff b).mpr hb
      have htw : (b :: t).takeWhile neGt = b :: t.takeWhile neGt := by
        rw [List.takeWhile_cons, hb', if_pos rfl]
      simp only [tagAt, htw, List.isEmpty_cons, Bool.not_false, Bool.true_and,
        decide_eq_false_iff_not, List.length_cons] at h
      refine Or.inr (Or.inr ?_)
      intro hm
      rcases List.mem_cons.mp hm with hm | hm
      · exact hb hm.symm
      · exact h (Nat.add_lt_add_right
          ((length_takeWhile_neGt_lt_iff t).mpr hm) 1)

lemma mem_removeTagsF : ∀ (fuel : ℕ) (s : List Char) {c : Char},
    c ∈ removeTagsF fuel s → c ∈ s := by
  intro fuel
  induction fuel with
  | zero => intro s c h; exact h
  | succ fuel ih =>
    intro s c h
    cases s with
    | nil => exact h
    | cons a rest =>
      simp only [removeTagsF] at h
      by_cases ha : a = '<'
      · rw [if_pos ha] at h
        by_cases htag : (rest.takeWhile neGt) ≠ [] ∧
            (rest.takeWhile neGt).length < rest.length
        · rw [if_pos htag] at h
          exact List.mem_cons_of_mem _ (List.drop_subset _ _ (ih _ h))
        · rw [if_neg htag] at h
          rcases List.mem_cons.mp h with h | h
          · exact h ▸ List.mem_cons_self _ _
          · exact List.mem_cons_of_mem _ (ih _ h)
      · rw [if_neg ha] at h
        rcases List.mem_cons.mp h with h | h
        · exact h ▸ List.mem_cons_self _ _
        · exact List.mem_cons_of_mem _ (ih _ h)

lemma hasTag_removeTagsF : ∀ (fuel : ℕ) (s : List Char), s.length ≤ fuel →
    hasTag (removeTagsF fuel s) = false := by
  intro fuel
  induction fuel with
  | zero =>
    intro s hs
    have h0 : s = [] := List.length_eq_zero.mp (Nat.le_zero.mp hs)
    subst h0
    rfl
  | succ fuel ih =>
    intro s hs
    cases s with
    | nil => rfl
    | cons a rest =>
      have hrest : rest.length ≤ fuel := by
        simp only [List.length_cons] at hs
        omega
      simp only [removeTagsF]
      by_cases ha : a = '<'
      · rw [if_pos ha]
        by_cases htag : (rest.takeWhile neGt) ≠ [] ∧
            (rest.takeWhile neGt).length < rest.length
        · rw [if_pos htag]
          refine ih _ ?_
          calc (rest.drop ((rest.takeWhile neGt).length + 1)).length
              = rest.length - ((rest.takeWhile neGt).length + 1) :=
                List.length_drop _ _
            _ ≤ rest.length := Nat.sub_le _ _
            _ ≤ fuel := hrest
        · rw [if_neg htag]
          subst ha
          rw [hasTag_cons_eq]
          have hX := ih rest hrest
          have htagX : tagAt (removeTagsF fuel rest) = false := by
            rcases not_and_or.mp htag with hw | hlen
            · rw [not_not] at hw
              cases rest with
              | nil =>
                cases fuel with
                | zero => exact tagAt_nil
                | succ f => exact tagAt_nil
              | cons b t =>
                have hb : neGt b = false := by
                  by_contra hb
                  rw [Bool.not_eq_false] at hb
                  rw [List.takeWhile_cons, hb, if_pos rfl] at hw
                  simp at hw
                have hb' : b = '>' := by simpa [neGt] using hb
                subst hb'
                cases fuel with
                | zero => simp at hrest
                | succ f =>
                  have hred : removeTagsF (f + 1) ('>' :: t) =
                      '>' :: removeTagsF f t := by
                    simp only [removeTagsF]
                    rw [if_neg (by decide)]
                  rw [hred]
                  exact tagAt_gt_cons _
            · have hmem : '>' ∉ rest :=
                fun hm => hlen ((length_takeWhile_neGt_lt_iff rest).mpr hm)
              exact tagAt_of_not_mem
                (fun hm => hmem (mem_removeTagsF fuel rest hm))
          rw [htagX, hX]
          rfl
      · rw [if_neg ha]
        rw [hasTag_cons_eq]
        have ha' : (a == '<') = false := by simpa using ha
        rw [ha', ih rest hrest]
        rfl

lemma collapseWs_cons_not_ws {d : Char} (hd : isPySpace d = false)
    (r : List Char) : collapseWs (d :: r) = d :: collapseWs r := by
  cases r with
  | nil => simp [collapseWs, hd]
  | cons e r' => simp [collapseWs, hd]

lemma mem_collapseWs : ∀ {s : List Char} {c : Char},
    c ∈ collapseWs s → c ∈ s ∨ c = ' ' := by
  intro s
  induction s with
  | nil => intro c h; simp [collapseWs] at h
  | cons a rest ih =>
    intro c h
    cases rest with
    | nil =>
      by_cases ha : isPySpace a = true
      · simp [collapseWs, ha] at h
        exact Or.inr h
      · simp [collapseWs, ha] at h
        exact Or.inl (by simp [h])
    | cons d r =>
      by_cases ha : isPySpace a = true
      · by_cases hd : isPySpace d = true
        · rw [show collapseWs (a :: d :: r) = collapseWs (d :: r) from by
            simp [collapseWs, ha, hd]] at h
          rcases ih h with h | h
          · exact Or.inl (List.mem_cons_of_mem _ h)
          · exact Or.inr h
        · rw [show collapseWs (a :: d :: r) = ' ' :: collapseWs (d :: r) from by
            simp [collapseWs, ha, hd]] at h
          rcases List.mem_cons.mp h with h | h
          · exact Or.inr h
          · rcases ih h with h2 | h2
            · exact Or.inl (List.mem_cons_of_mem _ h2)
            · exact Or.inr h2
      · rw [show collapseWs (a :: d :: r) = a :: collapseWs (d :: r) from by
          simp [collapseWs, ha]] at h
        rcases List.mem_cons.mp h with h | h
        · exact Or.inl (h ▸ List.mem_cons_self _ _)
        · rcases ih h with h2 | h2
          · exact Or.inl (List.mem_cons_of_mem _ h2)
          · exact Or.inr h2

lemma hasTag_collapseWs : ∀ (s : List Char), hasTag s = false →
    hasTag (collapseWs s) = false := by
  intro s
  induction s with
  | nil => intro _; rfl
  | cons a rest ih =>
    intro h
    rw [hasTag_cons_eq] at h
    have hcomp := Bool.or_eq_false_iff.mp h
    cases rest with
    | nil =>
      by_cases ha : isPySpace a = true
      · simp [collapseWs, ha, hasTag, tagAt]
      · simp [collapseWs, ha, hasTag, tagAt]
    | cons d r =>
      by_cases ha : isPySpace a = true
      · by_cases hd : isPySpace d = true
        · rw [show collapseWs (a :: d :: r) = collapseWs (d :: r) from by
            simp [collapseWs, ha, hd]]
          exact ih hcomp.2
        · rw [show collapseWs (a :: d :: r) = ' ' :: collapseWs (d :: r) from by
            simp [collapseWs, ha, hd]]
          rw [hasTag_cons_eq, ih hcomp.2]
          simp
      · by_cases hlt : a = '<'
        · subst hlt
          rw [show collapseWs ('<' :: d :: r) = '<' :: collapseWs (d :: r) from by
            simp [collapseWs, ha]]
          rw [hasTag_cons_eq, ih hcomp.2]
          have htag : tagAt (d :: r) = false := by
            have h1 := hcomp.1
            simpa using h1
          have htagX : tagAt (collapseWs (d :: r)) = false := by
            rcases tagAt_false_cases htag with h0 | ⟨t, h1⟩ | h2
            · cases h0
            · have hd' : d = '>' := by
                injection h1 with h1a h1b
              rw [hd'] at *
              rw [collapseWs_cons_not_ws (by decide) r]
              exact tagAt_gt_cons _
            · refine tagAt_of_not_mem ?_
              intro hm
              rcases mem_collapseWs hm with hm2 | hm2
              · exact h2 hm2
              · cases hm2
          rw [htagX]
          simp
        · rw [show collapseWs (a :: d :: r) = a :: collapseWs (d :: r) from by
            simp [collapseWs, ha]]
          rw [hasTag_cons_eq, ih hcomp.2]
          have ha' : (a == '<') = false := by simpa using hlt
          rw [ha']
          rfl

lemma chain'_collapseWs (s : List Char) :
    List.Chain' (fun a b => ¬(isPySpace a = true ∧ isPySpace b = true))
      (collapseWs s) := by
  induction s with
  | nil => simp [collapseWs]
  | cons a rest ih =>
    cases rest with
    | nil =>
      by_cases ha : isPySpace a = true <;> simp [collapseWs, ha]
    | cons d r =>
      by_cases ha : isPySpace a = true
      · by_cases hd : isPySpace d = true
        · rw [show collapseWs (a :: d :: r) = collapseWs (d :: r) from by
            simp [collapseWs, ha, hd]]
          exact ih
        · have hd' : isPySpace d = false := by simpa using hd
          rw [show collapseWs (a :: d :: r) = ' ' :: collapseWs (d :: r) from by
            simp [collapseWs, ha, hd]]
          rw [collapseWs_cons_not_ws hd' r]
          refine List.chain'_cons.mpr ⟨by simp [hd'], ?_⟩
          rw [← collapseWs_cons_not_ws hd' r]
          exact ih
      · have ha' : isPySpace a = false := by simpa using ha
        rw [show collapseWs (a :: d :: r) = a :: collapseWs (d :: r) from by
          simp [collapseWs, ha]]
        refine List.chain'_cons'.mpr ⟨?_, ih⟩
        intro y _
        simp [ha']

lemma chain'_of_parts {R : Char → Char → Prop} (u m v : List Char)
    (h : List.Chain' R (u ++ m ++ v)) : List.Chain' R m :=
  (List.chain'_append.mp (List.chain'_append.mp h).1).2.1

lemma stripChars_parts (s : List Char) :
    ∃ u v, s = u ++ stripChars s ++ v := by
  refine ⟨s.takeWhile isPySpace,
    ((s.dropWhile isPySpace).reverse.takeWhile isPySpace).reverse, ?_⟩
  unfold stripChars
  rw [List.append_assoc]
  conv_lhs => rw [← List.takeWhile_append_dropWhile isPySpace s]
  congr 1
  conv_lhs => rw [← List.reverse_reverse (s.dropWhile isPySpace),
    ← List.takeWhile_append_dropWhile isPySpace (s.dropWhile isPySpace).reverse]
  rw [List.reverse_append]

lemma tagFree_stripChars {s : List Char} (h : TagFree s) :
    TagFree (stripChars s) := by
  obtain ⟨u, v, heq⟩ := stripChars_parts s
  exact tagFree_of_infix u _ v (by rw [← heq]; exact h)

lemma chain'_stripChars {R : Char → Char → Prop} {s : List Char}
    (h : List.Chain' R s) : List.Chain' R (stripChars s) := by
  obtain ⟨u, v, heq⟩ := stripChars_parts s
  exact chain'_of_parts u _ v (by rw [← heq]; exact h)

lemma head?_dropWhile_ws : ∀ (l : List Char) {c : Char},
    (l.dropWhile isPySpace).head? = some c → isPySpace c = false := by
  intro l
  induction l with
  | nil => intro c h; cases h
  | cons a t ih =>
    intro c h
    by_cases ha : isPySpace a = true
    · rw [List.dropWhile_cons_of_pos ha] at h
      exact ih h
    · rw [List.dropWhile_cons_of_neg ha] at h
      have hac : a = c := by simpa using h
      rw [← hac]
      simpa using ha

lemma getLast?_dropWhile_ws {l : List Char} {c : Char}
    (h : (l.dropWhile isPySpace).getLast? = some c) : l.getLast? = some c := by
  have hne : l.dropWhile isPySpace ≠ [] := by
    intro h0
    rw [h0] at h
    cases h
  have h2 := @List.getLast?_append_of_ne_nil _ (l.takeWhile isPySpace)
    (l.dropWhile isPySpace) hne
  rw [List.takeWhile_append_dropWhile] at h2
  rw [h2, h]

lemma stripChars_head?_not_ws {s : List Char} {c : Char}
    (h : (stripChars s).head? = some c) : isPySpace c = false := by
  unfold stripChars at h
  rw [List.head?_reverse] at h
  have h2 := getLast?_dropWhile_ws h
  rw [List.getLast?_reverse] at h2
  exact head?_dropWhile_ws _ h2

lemma stripChars_getLast?_not_ws {s : List Char} {c : Char}
    (h : (stripChars s).getLast? = some c) : isPySpace c = false := by
  unfold stripChars at h
  rw [List.getLast?_reverse] at h
  exact head?_dropWhile_ws _ h

/-- C8: the cleaned text of every successful transcribe call contains no
bracket/tag-like substring `<...>` (nonempty `>`-free content), no two
adjacent whitespace characters (hence no whitespace run of length two or
more), and neither starts nor ends with whitespace. -/
theorem C8_postprocessing_contract (raw : List Char) :
    TagFree (cleanupText raw) ∧
    List.Chain' (fun a b => ¬(isPySpace a = true ∧ isPySpace b = true))
      (cleanupText raw) ∧
    (∀ c, (cleanupText raw).head? = some c → isPySpace c = false) ∧
    (∀ c, (cleanupText raw).getLast? = some c → isPySpace c = false) := by
  refine ⟨?_, ?_, fun c h => stripChars_head?_not_ws h,
    fun c h => stripChars_getLast?_not_ws h⟩
  · apply tagFree_stripChars
    rw [tagFree_iff_hasTag]
    apply hasTag_collapseWs
    exact hasTag_removeTagsF _ _ le_rfl
  · exact chain'_stripChars (chain'_collapseWs _)

/-- Witness for C8 at a concrete raw text: `" a<x>  b "` cleans to `"a b"`,
whose last character is the non-whitespace `b`. -/
theorem C8_witness :
    cleanupText
        (' ' :: 'a' :: '<' :: 'x' :: '>' :: ' ' :: ' ' :: 'b' :: ' ' :: []) =
      ('a' :: ' ' :: 'b' :: []) ∧
    isPySpace 'b' = false :=
  ⟨by decide, (C8_postprocessing_contract
    (' ' :: 'a' :: '<' :: 'x' :: '>' :: ' ' :: ' ' :: 'b' :: ' ' :: [])).2.2.2
    'b' (by decide)⟩

end MedASR
